import Mathlib

/-!
Verification of the photoguru organization/clustering/scoring core
(`src/python/agent_v2.py`) against its natural-language specification.

The Python code is shallowly embedded: pure numeric code over `numpy`
floats is modelled over `ℝ` where square roots are involved (the SKP
vector protocol) and over `ℚ` elsewhere (times in seconds, coordinates,
scores, embeddings); Python `Optional` fields become `Option`;
Python truthiness of an optional float (`if photo.gps_lat:`) is modelled
by `pyTruthy`; the external DBSCAN clusterer is modelled as an arbitrary
label assignment parameter, since the core only consumes its labels.
-/

namespace PhotoGuru

/-! ## Python float truthiness

`if x:` on an `Optional[float]` is false for `None` and for `0.0`. -/

def pyTruthy : Option ℚ → Bool
  | none => false
  | some x => decide (x ≠ 0)

@[simp] theorem pyTruthy_none : pyTruthy none = false := rfl

@[simp] theorem pyTruthy_some (x : ℚ) : pyTruthy (some x) = decide (x ≠ 0) := rfl

/-! ## SKP protocol: `SemanticKey` (agent_v2.py lines 79-156)

Vectors are `List ℝ`.  `sumSq` is the sum of squares, `vnorm` the
Euclidean norm `np.linalg.norm`, `normalizeVec` the normalization applied
by `SemanticKey.__post_init__` (`if norm > 0: vector = vector / norm`). -/

noncomputable def sumSq (v : List ℝ) : ℝ := (v.map fun x => x * x).sum

noncomputable def vnorm (v : List ℝ) : ℝ := Real.sqrt (sumSq v)

noncomputable def normalizeVec (v : List ℝ) : List ℝ :=
  if vnorm v > 0 then v.map (· / vnorm v) else v

/-- `np.dot` over two equal-length vectors (modelled with `zip`). -/
noncomputable def dotL (a b : List ℝ) : ℝ := ((a.zip b).map fun p => p.1 * p.2).sum

/-- `SemanticKey.alignment` (lines 100-116): returns `0.0` when the
argument has zero norm, otherwise `(k · â + 1) / 2`. -/
noncomputable def alignmentV (k a : List ℝ) : ℝ :=
  if vnorm a = 0 then 0
  else (dotL k (a.map (· / vnorm a)) + 1) / 2

/-- Weight normalization in `SemanticKey.compose` (lines 130-132):
`weights = [w / total for w in weights]`. -/
noncomputable def normWeights (ws : List ℝ) : List ℝ := ws.map (· / ws.sum)

/-- The weighted mixture in `SemanticKey.compose` (lines 134-137):
`composed = zeros_like(keys[0].vector)`, then
`composed += weight * key.vector` over the zipped keys and weights. -/
noncomputable def composeSum (vs : List (List ℝ)) (ws : List ℝ) : List ℝ :=
  (vs.zip (normWeights ws)).foldl
    (fun acc p => acc.zipWith (· + ·) (p.1.map (p.2 * ·)))
    ((vs.headD []).map fun _ => 0)

/-- The vector of the key returned by `SemanticKey.compose`: the mixture
is normalized inside `compose` (lines 139-142), and the constructed
`SemanticKey`'s `__post_init__` normalizes once more. -/
noncomputable def composeVec (vs : List (List ℝ)) (ws : List ℝ) : List ℝ :=
  normalizeVec (normalizeVec (composeSum vs ws))

theorem sumSq_nonneg (v : List ℝ) : 0 ≤ sumSq v := by
  induction v with
  | nil => simp [sumSq]
  | cons x xs ih =>
      simp only [sumSq, List.map_cons, List.sum_cons] at *
      nlinarith [mul_self_nonneg x]

theorem sumSq_eq_zero_iff (v : List ℝ) : sumSq v = 0 ↔ ∀ x ∈ v, x = 0 := by
  induction v with
  | nil => simp [sumSq]
  | cons x xs ih =>
      have hx := mul_self_nonneg x
      have hxs := sumSq_nonneg xs
      simp only [sumSq, List.map_cons, List.sum_cons, List.mem_cons] at *
      constructor
      · intro h
        have hxx : x * x = 0 := by linarith
        have hx0 : x = 0 := mul_self_eq_zero.mp hxx
        intro y hy
        rcases hy with rfl | hy
        · exact hx0
        · exact ih.mp (by linarith) y hy
      · intro h
        have hx0 : x = 0 := h x (Or.inl rfl)
        have hxs0 := ih.mpr fun y hy => h y (Or.inr hy)
        rw [hx0]
        simpa using hxs0

theorem vnorm_nonneg (v : List ℝ) : 0 ≤ vnorm v := Real.sqrt_nonneg _

theorem vnorm_eq_zero_iff (v : List ℝ) : vnorm v = 0 ↔ ∀ x ∈ v, x = 0 := by
  rw [vnorm, Real.sqrt_eq_zero (sumSq_nonneg v), sumSq_eq_zero_iff]

theorem sumSq_div (v : List ℝ) (c : ℝ) :
    sumSq (v.map (· / c)) = sumSq v / (c * c) := by
  induction v with
  | nil => simp [sumSq]
  | cons x xs ih =>
      simp only [sumSq, List.map_cons, List.sum_cons, List.map_map] at *
      rw [show ((fun x => x * x) ∘ fun x => x / c) = fun x => (x / c) * (x / c) from rfl] at *
      rw [ih]
      ring

theorem vnorm_mul_self (v : List ℝ) : vnorm v * vnorm v = sumSq v :=
  Real.mul_self_sqrt (sumSq_nonneg v)

/-- Normalization really produces a unit vector when the norm is positive. -/
theorem vnorm_normalizeVec (v : List ℝ) (h : vnorm v > 0) :
    vnorm (normalizeVec v) = 1 := by
  have hs : sumSq v > 0 := by
    have := vnorm_mul_self v
    nlinarith
  rw [normalizeVec, if_pos h, vnorm, sumSq_div, vnorm_mul_self,
    div_self (ne_of_gt hs), Real.sqrt_one]

theorem normalizeVec_of_zero (v : List ℝ) (h : vnorm v = 0) :
    normalizeVec v = v := by
  rw [normalizeVec, if_neg]
  rw [h]
  exact lt_irrefl 0

theorem vnorm_pos_of_exists (v : List ℝ) (h : ∃ x ∈ v, x ≠ 0) :
    vnorm v > 0 := by
  rcases lt_or_eq_of_le (vnorm_nonneg v) with hlt | heq
  · exact hlt
  · exfalso
    rcases h with ⟨x, hx, hx0⟩
    exact hx0 ((vnorm_eq_zero_iff v).mp heq.symm x hx)

theorem dotL_of_left_zero (z b : List ℝ) (h : ∀ x ∈ z, x = 0) :
    dotL z b = 0 := by
  induction z generalizing b with
  | nil => simp [dotL]
  | cons x zs ih =>
      cases b with
      | nil => simp [dotL]
      | cons y bs =>
          have hx : x = 0 := h x (List.mem_cons_self x zs)
          have hzs : ∀ x ∈ zs, x = 0 := fun a ha => h a (List.mem_cons_of_mem x ha)
          simp only [dotL, List.zip_cons_cons, List.map_cons, List.sum_cons]
          rw [hx]
          have := ih bs hzs
          simp only [dotL] at this
          rw [this]
          ring

/-- **C7.** For every input vector `v`, the `SemanticKey` built from `v`
(`__post_init__` normalization) carries a vector of Euclidean norm 1,
except when `v` is the zero vector, where the vector is left unchanged;
the same invariant holds for the vector of a key produced by
`SemanticKey.compose` (the composed weighted sum plays the role of the
input vector there). -/
theorem C7_normalize_unit_invariant :
    (∀ v : List ℝ,
      ((∃ x ∈ v, x ≠ 0) → vnorm (normalizeVec v) = 1) ∧
      ((∀ x ∈ v, x = 0) → normalizeVec v = v)) ∧
    (∀ (vs : List (List ℝ)) (ws : List ℝ), vs ≠ [] → ws.sum ≠ 0 →
      ((∃ x ∈ composeSum vs ws, x ≠ 0) → vnorm (composeVec vs ws) = 1) ∧
      ((∀ x ∈ composeSum vs ws, x = 0) →
        composeVec vs ws = composeSum vs ws)) := by
  constructor
  · intro v
    constructor
    · intro h
      exact vnorm_normalizeVec v (vnorm_pos_of_exists v h)
    · intro h
      exact normalizeVec_of_zero v ((vnorm_eq_zero_iff v).mpr h)
  · intro vs ws _ _
    constructor
    · intro h
      have h1 : vnorm (composeSum vs ws) > 0 := vnorm_pos_of_exists _ h
      have h2 : vnorm (normalizeVec (composeSum vs ws)) = 1 :=
        vnorm_normalizeVec _ h1
      have h3 : vnorm (normalizeVec (composeSum vs ws)) > 0 := by
        rw [h2]; norm_num
      exact vnorm_normalizeVec _ h3
    · intro h
      have h0 : vnorm (composeSum vs ws) = 0 := (vnorm_eq_zero_iff _).mpr h
      rw [composeVec, normalizeVec_of_zero _ h0, normalizeVec_of_zero _ h0]

/-- Witness for C7 at concrete inputs: `v = [3, 4]` normalizes to a unit
vector, and composing the single key `[1, 0]` with weight `2` yields a
unit vector as well. -/
theorem C7_normalize_unit_invariant_witness :
    (∃ x ∈ [(3:ℝ), 4], x ≠ 0) ∧ vnorm (normalizeVec [(3:ℝ), 4]) = 1 ∧
    ([[(1:ℝ), 0]] ≠ ([] : List (List ℝ))) ∧ ([(2:ℝ)].sum ≠ 0) ∧
    (∃ x ∈ composeSum [[(1:ℝ), 0]] [(2:ℝ)], x ≠ 0) ∧
    vnorm (composeVec [[(1:ℝ), 0]] [(2:ℝ)]) = 1 := by
  have h1 : ∃ x ∈ [(3:ℝ), 4], x ≠ 0 := ⟨3, by simp, by norm_num⟩
  have h2 : [[(1:ℝ), 0]] ≠ ([] : List (List ℝ)) := by simp
  have h3 : [(2:ℝ)].sum ≠ 0 := by norm_num
  have hcs : composeSum [[(1:ℝ), 0]] [(2:ℝ)] = [1, 0] := by
    simp [composeSum, normWeights]
  have h4 : ∃ x ∈ composeSum [[(1:ℝ), 0]] [(2:ℝ)], x ≠ 0 := by
    rw [hcs]
    exact ⟨1, by simp, one_ne_zero⟩
  exact ⟨h1, (C7_normalize_unit_invariant.1 [3, 4]).1 h1, h2, h3, h4,
    (C7_normalize_unit_invariant.2 [[(1:ℝ), 0]] [(2:ℝ)] h2 h3).1 h4⟩

/-- **C8 counterexample.** The claim states that alignment against the
degenerate zero key is always 0; but `alignment` of the zero key against
`[1, 0]` computes cosine 0 and rescales it to `(0 + 1) / 2 = 1/2 ≠ 0`. -/
theorem C8_counterexample_zero_key_alignment :
    alignmentV (normalizeVec [(0:ℝ), 0]) [1, 0] = 1 / 2 ∧ ((1:ℝ) / 2 ≠ 0) := by
  have hz : vnorm [(0:ℝ), 0] = 0 := by
    rw [vnorm_eq_zero_iff]
    intro x hx
    simpa using hx
  have hnz : normalizeVec [(0:ℝ), 0] = [0, 0] := normalizeVec_of_zero _ hz
  have h1 : vnorm [(1:ℝ), 0] = 1 := by
    have hs : sumSq [(1:ℝ), 0] = 1 := by simp [sumSq]
    rw [vnorm, hs, Real.sqrt_one]
  constructor
  · rw [hnz, alignmentV, if_neg (by rw [h1]; norm_num), h1]
    norm_num [dotL]
  · norm_num

/-- **C8 (amended).** `alignment(k, v)` returns exactly `0.0` whenever the
input vector `v` has zero norm, for every key `k`; however, alignment of
the degenerate all-zero key against a vector of nonzero norm returns
`1/2` (cosine 0 rescaled), not 0. -/
theorem C8_alignment_degenerate :
    (∀ k v : List ℝ, vnorm v = 0 → alignmentV k v = 0) ∧
    (∀ z v : List ℝ, (∀ x ∈ z, x = 0) → vnorm v ≠ 0 →
      alignmentV z v = 1 / 2) := by
  constructor
  · intro k v h
    rw [alignmentV, if_pos h]
  · intro z v hz hv
    rw [alignmentV, if_neg hv, dotL_of_left_zero z _ hz]
    norm_num

/-- Witness for C8 at concrete inputs: the empty vector has zero norm and
aligns to 0 against the key `[5]`; the zero key `[0, 0]` aligns to `1/2`
against `[1, 0]`, which has nonzero norm. -/
theorem C8_alignment_degenerate_witness :
    (vnorm ([] : List ℝ) = 0 ∧ alignmentV [(5:ℝ)] [] = 0) ∧
    ((∀ x ∈ [(0:ℝ), 0], x = 0) ∧ vnorm [(1:ℝ), 0] ≠ 0 ∧
      alignmentV [(0:ℝ), 0] [1, 0] = 1 / 2) := by
  have h0 : vnorm ([] : List ℝ) = 0 := by
    simp [vnorm, sumSq, Real.sqrt_zero]
  have hz : ∀ x ∈ [(0:ℝ), 0], x = 0 := by
    intro x hx
    simpa using hx
  have h1 : vnorm [(1:ℝ), 0] ≠ 0 := by
    have hs : sumSq [(1:ℝ), 0] = 1 := by simp [sumSq]
    rw [vnorm, hs, Real.sqrt_one]
    norm_num
  exact ⟨⟨h0, C8_alignment_degenerate.1 [5] [] h0⟩,
    ⟨hz, h1, C8_alignment_degenerate.2 [0, 0] [1, 0] hz h1⟩⟩

/-! ## Hamming distance over perceptual hash codes
(agent_v2.py line 1967, and `cmd_duplicates` line 2462)

A hash code is a hex string; `int(hash, 16)` is `hexVal` over the digit
list (most significant first).  The code computes
`bin(int(hash1, 16) ^ int(hash2, 16)).count('1')` — `popcount` of the
XOR of the parsed values — with no check on the widths of the codes. -/

/-- `int(hash, 16)` over the hex digit string. -/
def hexVal (h : List (Fin 16)) : ℕ := h.foldl (fun acc d => 16 * acc + d.val) 0

/-- `bin(n).count('1')`. -/
def popcount (n : ℕ) : ℕ :=
  if n = 0 then 0 else n % 2 + popcount (n / 2)
termination_by n
decreasing_by exact Nat.div_lt_self (Nat.pos_of_ne_zero (by assumption)) (by norm_num)

/-- The Hamming distance as the code computes it: XOR of the parsed
integer values, then popcount.  No width comparison happens anywhere. -/
def hammingDistance (h1 h2 : List (Fin 16)) : ℕ :=
  popcount (hexVal h1 ^^^ hexVal h2)

theorem popcount_zero : popcount 0 = 0 := by rw [popcount]; rfl

theorem popcount_step (n : ℕ) (h : n ≠ 0) :
    popcount n = n % 2 + popcount (n / 2) := by
  rw [popcount, if_neg h]

theorem popcount_odd (n : ℕ) : popcount (2 * n + 1) = popcount n + 1 := by
  rw [popcount_step _ (by omega)]
  have h1 : (2 * n + 1) % 2 = 1 := by omega
  have h2 : (2 * n + 1) / 2 = n := by omega
  rw [h1, h2]
  omega

theorem popcount_even (n : ℕ) (h : n ≠ 0) : popcount (2 * n) = popcount n := by
  rw [popcount_step _ (by omega)]
  have h1 : (2 * n) % 2 = 0 := by omega
  have h2 : (2 * n) / 2 = n := by omega
  rw [h1, h2]
  omega

theorem popcount_pow2_sub_one (k : ℕ) : popcount (2 ^ k - 1) = k := by
  induction k with
  | zero => simpa using popcount_zero
  | succ m ih =>
      have h : 2 ^ (m + 1) - 1 = 2 * (2 ^ m - 1) + 1 := by
        have : 1 ≤ 2 ^ m := Nat.one_le_two_pow
        omega
      rw [h, popcount_odd, ih]

theorem popcount_pow2 (k : ℕ) : popcount (2 ^ k) = 1 := by
  induction k with
  | zero =>
      have : (2 : ℕ) ^ 0 = 2 * 0 + 1 := by norm_num
      rw [this, popcount_odd, popcount_zero]
  | succ m ih =>
      have h : (2 : ℕ) ^ (m + 1) = 2 * 2 ^ m := by ring
      have hne : (2 : ℕ) ^ m ≠ 0 := by positivity
      rw [h, popcount_even _ hne, ih]

theorem popcount_eq_zero_iff (n : ℕ) : popcount n = 0 ↔ n = 0 := by
  induction n using Nat.strong_induction_on with
  | _ n ih =>
      rcases Nat.eq_zero_or_pos n with rfl | hpos
      · simp [popcount_zero]
      · have hne : n ≠ 0 := by omega
        rw [popcount_step n hne]
        constructor
        · intro h
          exfalso
          rcases Nat.even_or_odd n with he | ho
          · have h2 : n / 2 ≠ 0 := by omega
            have hlt : n / 2 < n := Nat.div_lt_self hpos (by norm_num)
            have := (ih (n / 2) hlt).not.mpr h2
            omega
          · have : n % 2 = 1 := Nat.odd_iff.mp ho
            omega
        · intro h
          exact absurd h hne

/-- **C4 counterexample.** The claim says Hamming distance on codes of
unequal width fails fast with an explicit error; instead the code parses
both hex strings as integers and returns a numeric distance: the
unequal-width codes `"7"` and `"07"` get distance 0 (silently wrong,
they are different codes), and `"1"` versus `"11"` gets distance 1. -/
theorem C4_counterexample_unequal_width_distance :
    ([(7 : Fin 16)].length ≠ [(0 : Fin 16), 7].length) ∧
    hammingDistance [(7 : Fin 16)] [(0 : Fin 16), 7] = 0 ∧
    ([(1 : Fin 16)].length ≠ [(1 : Fin 16), 1].length) ∧
    hammingDistance [(1 : Fin 16)] [(1 : Fin 16), 1] = 1 := by
  refine ⟨by decide, ?_, by decide, ?_⟩
  · have h1 : hexVal [(7 : Fin 16)] = 7 := by decide
    have h2 : hexVal [(0 : Fin 16), 7] = 7 := by decide
    rw [hammingDistance, h1, h2, Nat.xor_self, popcount_zero]
  · have h1 : hexVal [(1 : Fin 16)] = 1 := by decide
    have h2 : hexVal [(1 : Fin 16), 1] = 17 := by decide
    have h3 : (1 : ℕ) ^^^ 17 = 16 := by decide
    have h4 : (16 : ℕ) = 2 ^ 4 := by norm_num
    rw [hammingDistance, h1, h2, h3, h4, popcount_pow2]

/-- **C4 (amended).** No width check is performed: the Hamming distance
is always a numeric result determined solely by the parsed integer
values of the two codes (symmetric, and zero exactly when the parsed
values coincide — even for codes of different widths). -/
theorem C4_hamming_value_based_no_error :
    (∀ h1 h2 : List (Fin 16), hammingDistance h1 h2 = hammingDistance h2 h1) ∧
    (∀ h1 h2 : List (Fin 16),
      hammingDistance h1 h2 = 0 ↔ hexVal h1 = hexVal h2) := by
  constructor
  · intro h1 h2
    rw [hammingDistance, hammingDistance, Nat.xor_comm]
  · intro h1 h2
    rw [hammingDistance, popcount_eq_zero_iff, Nat.xor_eq_zero]

/-! ## DuplicateDetector (agent_v2.py lines 1951-1980)

Single pass over items in input order, with a `processed` set: for each
unprocessed item (the seed), every later unprocessed item within Hamming
distance `< 10` of the seed joins the seed's group and is marked
processed; groups of size 1 are discarded.  `collect seed rest` returns
the pair (items joining the seed's group, remaining unprocessed items),
both in input order; `dupGroups` is the outer loop. -/

structure DPhoto where
  id : ℕ
  hash : List (Fin 16)
deriving DecidableEq, Repr

def collect (seed : DPhoto) : List DPhoto → List DPhoto × List DPhoto
  | [] => ([], [])
  | x :: xs =>
      let pr := collect seed xs
      if hammingDistance seed.hash x.hash < 10
      then (x :: pr.1, pr.2) else (pr.1, x :: pr.2)

theorem collect_snd_length (seed : DPhoto) (l : List DPhoto) :
    (collect seed l).2.length ≤ l.length := by
  induction l with
  | nil => simp [collect]
  | cons x xs ih =>
      simp only [collect]
      split <;> simp <;> omega

def dupGroups : List DPhoto → List (List DPhoto)
  | [] => []
  | p :: rest =>
      let pr := collect p rest
      if pr.1 = [] then dupGroups rest
      else (p :: pr.1) :: dupGroups pr.2
termination_by l => l.length
decreasing_by
  · simp only [List.length_cons]
    omega
  · have := collect_snd_length x xs
    simp only [List.length_cons]
    omega

theorem collect_mem_fst (seed : DPhoto) (l : List DPhoto) (p : DPhoto)
    (h : p ∈ (collect seed l).1) :
    hammingDistance seed.hash p.hash < 10 := by
  induction l with
  | nil => simp [collect] at h
  | cons x xs ih =>
      simp only [collect] at h
      split at h
      · rcases List.mem_cons.mp h with rfl | h2
        · assumption
        · exact ih h2
      · exact ih h

theorem dupGroups_sound (l : List DPhoto) :
    ∀ c ∈ dupGroups l, ∃ s t, c = s :: t ∧ t ≠ [] ∧
      ∀ p ∈ t, hammingDistance s.hash p.hash < 10 := by
  induction l using dupGroups.induct with
  | case1 =>
      intro c hc
      simp [dupGroups] at hc
  | case2 x xs pr hpr ih =>
      intro c hc
      have hpr' : (collect x xs).1 = [] := hpr
      simp only [dupGroups] at hc
      rw [if_pos hpr'] at hc
      exact ih c hc
  | case3 x xs pr hpr ih =>
      intro c hc
      have hpr' : ¬ (collect x xs).1 = [] := hpr
      simp only [dupGroups] at hc
      rw [if_neg hpr'] at hc
      rcases List.mem_cons.mp hc with rfl | h2
      · exact ⟨x, (collect x xs).1, rfl, hpr',
          fun p hp => collect_mem_fst x xs p hp⟩
      · exact ih c h2

/-- Hash code `"0000000000000000"` (16 hex digits, 64 bits). -/
def hashA : List (Fin 16) := List.replicate 16 0

/-- Hash code `"0000000000000007"`: Hamming distance 3 from `hashA`. -/
def hashB : List (Fin 16) := List.replicate 15 0 ++ [7]

/-- Hash code `"00000000000fffff"`: Hamming distance 20 from `hashA`. -/
def hashC : List (Fin 16) := List.replicate 11 0 ++ List.replicate 5 15

/-- Hash code `"0000000000000fff"`: distance 12 from `hashA`, 9 from
`hashB`. -/
def hashD : List (Fin 16) := List.replicate 13 0 ++ List.replicate 3 15

def photoA : DPhoto := ⟨0, hashA⟩

def photoB : DPhoto := ⟨1, hashB⟩

def photoC : DPhoto := ⟨2, hashC⟩

def photoD : DPhoto := ⟨3, hashD⟩

theorem dist_AB : hammingDistance hashA hashB = 3 := by
  have h1 : hexVal hashA = 0 := by decide
  have h2 : hexVal hashB = 7 := by decide
  have h3 : (0 : ℕ) ^^^ 7 = 2 ^ 3 - 1 := by decide
  rw [hammingDistance, h1, h2, h3, popcount_pow2_sub_one]

theorem dist_AC : hammingDistance hashA hashC = 20 := by
  have h1 : hexVal hashA = 0 := by decide
  have h2 : hexVal hashC = 1048575 := by decide
  have h3 : (0 : ℕ) ^^^ 1048575 = 2 ^ 20 - 1 := by decide
  rw [hammingDistance, h1, h2, h3, popcount_pow2_sub_one]

theorem dist_AD : hammingDistance hashA hashD = 12 := by
  have h1 : hexVal hashA = 0 := by decide
  have h2 : hexVal hashD = 4095 := by decide
  have h3 : (0 : ℕ) ^^^ 4095 = 2 ^ 12 - 1 := by decide
  rw [hammingDistance, h1, h2, h3, popcount_pow2_sub_one]

theorem dist_BD : hammingDistance hashB hashD = 9 := by
  have h1 : hexVal hashB = 7 := by decide
  have h2 : hexVal hashD = 4095 := by decide
  have h3 : (7 : ℕ) ^^^ 4095 = 4088 := by decide
  rw [hammingDistance, h1, h2, h3]
  have e1 : (4088 : ℕ) = 2 * 2044 := by norm_num
  have e2 : (2044 : ℕ) = 2 * 1022 := by norm_num
  have e3 : (1022 : ℕ) = 2 * 511 := by norm_num
  have e4 : (511 : ℕ) = 2 ^ 9 - 1 := by norm_num
  rw [e1, popcount_even _ (by norm_num), e2, popcount_even _ (by norm_num),
    e3, popcount_even _ (by norm_num), e4, popcount_pow2_sub_one]

theorem dupGroups_example_ABC :
    dupGroups [photoA, photoB, photoC] = [[photoA, photoB]] := by
  have hAB : hammingDistance photoA.hash photoB.hash < 10 := by
    show hammingDistance hashA hashB < 10
    rw [dist_AB]; norm_num
  have hAC : ¬ hammingDistance photoA.hash photoC.hash < 10 := by
    show ¬ hammingDistance hashA hashC < 10
    rw [dist_AC]; norm_num
  have hcol : collect photoA [photoB, photoC] = ([photoB], [photoC]) := by
    simp [collect, hAB, hAC]
  have hC : collect photoC [] = ([], []) := by simp [collect]
  rw [dupGroups]
  simp only [hcol]
  rw [if_neg (by simp), dupGroups]
  simp only [hC]
  simp [dupGroups]

theorem dupGroups_example_ABD :
    dupGroups [photoA, photoB, photoD] = [[photoA, photoB]] := by
  have hAB : hammingDistance photoA.hash photoB.hash < 10 := by
    show hammingDistance hashA hashB < 10
    rw [dist_AB]; norm_num
  have hAD : ¬ hammingDistance photoA.hash photoD.hash < 10 := by
    show ¬ hammingDistance hashA hashD < 10
    rw [dist_AD]; norm_num
  have hcol : collect photoA [photoB, photoD] = ([photoB], [photoD]) := by
    simp [collect, hAB, hAD]
  have hD : collect photoD [] = ([], []) := by simp [collect]
  rw [dupGroups]
  simp only [hcol]
  rw [if_neg (by simp), dupGroups]
  simp only [hD]
  simp [dupGroups]

/-- **C3.** DuplicateDetector is greedy seed-centered clustering: every
returned cluster is a seed followed by at least one later item, with
every member within Hamming distance `< 10` of the seed (membership is
decided only against the seed).  For hashes with `d(A,B) = 3` and
`d(A,C) = 20`, the batch `[A, B, C]` yields exactly the cluster
`{A, B}` with `C` unclustered; and an item `D` with `d(A,D) = 12` but
`d(B,D) = 9` still does not join (first-seed-wins, no merge pass). -/
theorem C3_duplicate_greedy_seed_clustering :
    (∀ (l : List DPhoto), ∀ c ∈ dupGroups l, ∃ s t, c = s :: t ∧ t ≠ [] ∧
      ∀ p ∈ t, hammingDistance s.hash p.hash < 10) ∧
    hammingDistance hashA hashB = 3 ∧
    hammingDistance hashA hashC = 20 ∧
    dupGroups [photoA, photoB, photoC] = [[photoA, photoB]] ∧
    hammingDistance hashA hashD = 12 ∧
    hammingDistance hashB hashD = 9 ∧
    dupGroups [photoA, photoB, photoD] = [[photoA, photoB]] :=
  ⟨dupGroups_sound, dist_AB, dist_AC, dupGroups_example_ABC,
    dist_AD, dist_BD, dupGroups_example_ABD⟩

/-- Witness for C3: the universally quantified soundness part applied to
the concrete batch `[A, B, C]` and its one returned cluster. -/
theorem C3_duplicate_greedy_seed_clustering_witness :
    [photoA, photoB] ∈ dupGroups [photoA, photoB, photoC] ∧
    ∃ s t, [photoA, photoB] = s :: t ∧ t ≠ [] ∧
      ∀ p ∈ t, hammingDistance s.hash p.hash < 10 := by
  have hm : [photoA, photoB] ∈ dupGroups [photoA, photoB, photoC] := by
    rw [dupGroups_example_ABC]
    exact List.mem_singleton.mpr rfl
  exact ⟨hm, C3_duplicate_greedy_seed_clustering.1 _ _ hm⟩

/-! ## Burst detection (agent_v2.py lines 1985-2031)

Over the time-sorted dated items: start a run at item `i`; the inner
loop looks at item `j`, breaking when the time gap from the *last
admitted* member exceeds 5 seconds, appending `j` and advancing when
both have embeddings and `np.dot` similarity exceeds 0.75, breaking when
both have embeddings but similarity fails, and — when either embedding
is missing — advancing `j` *without appending* (the item is skipped).
Runs shorter than 2 are discarded and the scan resumes at `i + 1`;
admitted runs resume the scan at `j`.

`extendBurst last acc rest` models the inner loop: `last` is the last
admitted member (`burst[-1]`), `acc` the run so far in reverse, and it
returns the finished run and the remaining items from position `j`. -/

structure BPhoto where
  id : ℕ
  t : ℚ
  emb : Option (List ℚ)
  quality : ℚ
deriving DecidableEq, Repr

/-- `np.dot` over two equal-length rational vectors. -/
def dotQ (a b : List ℚ) : ℚ := ((a.zip b).map fun p => p.1 * p.2).sum

def extendBurst (last : BPhoto) (acc : List BPhoto) :
    List BPhoto → List BPhoto × List BPhoto
  | [] => (acc.reverse, [])
  | x :: xs =>
      if x.t - last.t > 5 then (acc.reverse, x :: xs)
      else
        match last.emb, x.emb with
        | some e1, some e2 =>
            if dotQ e1 e2 > 3 / 4 then extendBurst x (x :: acc) xs
            else (acc.reverse, x :: xs)
        | _, _ => extendBurst last acc xs

theorem extendBurst_snd_length (l : List BPhoto) :
    ∀ (last : BPhoto) (acc : List BPhoto),
      (extendBurst last acc l).2.length ≤ l.length := by
  induction l with
  | nil => intro last acc; simp [extendBurst]
  | cons x xs ih =>
      intro last acc
      simp only [extendBurst]
      split
      · simp
      · split
        · split
          · exact le_trans (ih _ _) (by simp)
          · simp
        · exact le_trans (ih _ _) (by simp)

def detectBursts : List BPhoto → List (List BPhoto)
  | [] => []
  | p :: rest =>
      let br := extendBurst p [p] rest
      if 2 ≤ br.1.length then br.1 :: detectBursts br.2
      else detectBursts rest
termination_by l => l.length
decreasing_by
  · have := extendBurst_snd_length xs x [x]
    simp only [List.length_cons]
    omega
  · simp only [List.length_cons]
    omega

/-- Items only ever join the run when they carry an embedding. -/
theorem extendBurst_fst_append (l : List BPhoto) :
    ∀ (last : BPhoto) (acc : List BPhoto),
      ∃ ex, (extendBurst last acc l).1 = acc.reverse ++ ex ∧
        ∀ q ∈ ex, q.emb.isSome := by
  induction l with
  | nil =>
      intro last acc
      exact ⟨[], by simp [extendBurst]⟩
  | cons x xs ih =>
      intro last acc
      simp only [extendBurst]
      split
      · exact ⟨[], by simp⟩
      · split
        · rename_i e1 e2 heq1 heq2
          split
          · rcases ih x (x :: acc) with ⟨ex, hex, hall⟩
            refine ⟨x :: ex, ?_, ?_⟩
            · rw [hex, List.reverse_cons, List.append_assoc]
              rfl
            · intro q hq
              rcases List.mem_cons.mp hq with rfl | hq2
              · rw [heq2]; rfl
              · exact hall q hq2
          · exact ⟨[], by simp⟩
        · exact ih last acc

/-- If the last admitted member has no embedding, nothing further is
ever admitted (each candidate is skipped). -/
theorem extendBurst_of_none (l : List BPhoto) :
    ∀ (last : BPhoto) (acc : List BPhoto), last.emb = none →
      (extendBurst last acc l).1 = acc.reverse := by
  induction l with
  | nil => intro last acc _; simp [extendBurst]
  | cons x xs ih =>
      intro last acc hnone
      simp only [extendBurst]
      split
      · rfl
      · split
        · rename_i e1 e2 heq1 heq2
          rw [hnone] at heq1
          exact absurd heq1 (by simp)
        · exact ih last acc hnone

/-- Every member of every returned burst run carries an embedding. -/
theorem detectBursts_all_embedded (l : List BPhoto) :
    ∀ b ∈ detectBursts l, ∀ p ∈ b, p.emb.isSome := by
  induction l using detectBursts.induct with
  | case1 =>
      intro b hb
      simp [detectBursts] at hb
  | case2 p rest br hlen ih =>
      intro b hb
      have hlen' : 2 ≤ (extendBurst p [p] rest).1.length := hlen
      simp only [detectBursts] at hb
      rw [if_pos hlen'] at hb
      rcases List.mem_cons.mp hb with rfl | hb2
      · intro q hq
        rcases extendBurst_fst_append rest p [p] with ⟨ex, hex, hall⟩
        have hps : p.emb.isSome := by
          cases hemb : p.emb with
          | none =>
              have := extendBurst_of_none rest p [p] hemb
              rw [this] at hlen'
              simp at hlen'
          | some e => rfl
        rw [hex] at hq
        simp only [List.reverse_cons, List.reverse_nil, List.nil_append,
          List.singleton_append, List.mem_cons] at hq
        rcases hq with rfl | hq2
        · exact hps
        · exact hall q hq2
      · exact ih b hb2
  | case3 p rest br hlen ih =>
      intro b hb
      have hlen' : ¬ 2 ≤ (extendBurst p [p] rest).1.length := hlen
      simp only [detectBursts] at hb
      rw [if_neg hlen'] at hb
      exact ih b hb

/-- Item at `t = 0` with an embedding. -/
def bPhotoA : BPhoto := ⟨0, 0, some [1], 0⟩

/-- Item at `t = 1` (within the 5 s gap of `bPhotoA`) with NO embedding. -/
def bPhotoB : BPhoto := ⟨1, 1, none, 0⟩

/-- Item at `t = 2` with an embedding identical to `bPhotoA`'s. -/
def bPhotoC : BPhoto := ⟨2, 2, some [1], 0⟩

theorem detectBursts_example :
    detectBursts [bPhotoA, bPhotoB, bPhotoC] = [[bPhotoA, bPhotoC]] := by
  have h1 : extendBurst bPhotoA [bPhotoA] [bPhotoB, bPhotoC] =
      ([bPhotoA, bPhotoC], []) := by
    simp only [extendBurst, bPhotoA, bPhotoB, bPhotoC]
    norm_num [dotQ]
  rw [detectBursts]
  simp only [h1]
  rw [if_pos (by norm_num), detectBursts]

/-- **C2 counterexample.** `bPhotoB` lacks an embedding and is only 1 s
after the last admitted member, yet the scan does NOT admit it into the
current run on time alone: it is skipped, and the run returned for
`[A, B, C]` is exactly `[A, C]`. -/
theorem C2_counterexample_skipped_not_admitted :
    bPhotoB.t - bPhotoA.t ≤ 5 ∧ bPhotoB.emb = none ∧
    detectBursts [bPhotoA, bPhotoB, bPhotoC] = [[bPhotoA, bPhotoC]] ∧
    bPhotoB ∉ [bPhotoA, bPhotoC] := by
  refine ⟨by norm_num [bPhotoA, bPhotoB], rfl, detectBursts_example, by decide⟩

/-- **C2 (amended).** An item lacking a visual embedding (or following a
member lacking one) is never admitted into a burst run at all — it is
skipped, with the scan continuing from the last admitted member — so
every member of every returned run carries an embedding; the run still
closes only on a failed gap test or a failed similarity test between two
embedded items. -/
theorem C2_burst_members_have_embeddings (l : List BPhoto) :
    ∀ b ∈ detectBursts l, ∀ p ∈ b, p.emb.isSome :=
  detectBursts_all_embedded l

/-- Witness for C2 (amended) on the two-item all-embedded batch
`[A, C]`, which forms the run `[A, C]`. -/
theorem C2_burst_members_have_embeddings_witness :
    [bPhotoA, bPhotoC] ∈ detectBursts [bPhotoA, bPhotoC] ∧
    bPhotoA ∈ [bPhotoA, bPhotoC] ∧ bPhotoA.emb.isSome := by
  have h1 : extendBurst bPhotoA [bPhotoA] [bPhotoC] =
      ([bPhotoA, bPhotoC], []) := by
    simp only [extendBurst, bPhotoA, bPhotoC]
    norm_num [dotQ]
  have hm : [bPhotoA, bPhotoC] ∈ detectBursts [bPhotoA, bPhotoC] := by
    rw [detectBursts]
    simp only [h1]
    rw [if_pos (by norm_num), detectBursts]
    exact List.mem_singleton.mpr rfl
  exact ⟨hm, by decide,
    C2_burst_members_have_embeddings [bPhotoA, bPhotoC] _ hm bPhotoA (by decide)⟩

/-! ## GroupingEngine: `PhotoContextAnalyzer.create_groups`
(agent_v2.py lines 745-914)

Timestamps are rationals (seconds); coordinates are optional rationals.
`_haversine_distance` is trigonometric, so it is abstracted as a
distance-function parameter `Dist` — no claim depends on its values,
only on whether and with which arguments it is consulted.  The DBSCAN
labels of the undated regime are a parameter for the same reason. -/

structure GPhoto where
  id : ℕ
  dt : Option ℚ
  lat : Option ℚ
  lon : Option ℚ
  emb : Option (List ℚ)
deriving DecidableEq, Repr, Inhabited

/-- Stands for `_haversine_distance(lat1, lon1, lat2, lon2)`. -/
abbrev Dist := ℚ → ℚ → ℚ → ℚ → ℚ

/-- Group identifiers: `_generate_group_id` derives the dated-regime id
from the seed's timestamp and file stem (modelled by the seed's `dt` and
`id`); the undated regime uses `"group_0"`, `f"group_{label}"` and
`f"group_single_{idx}"`. -/
inductive GroupId where
  | seeded (dt : Option ℚ) (id : ℕ)
  | fallback
  | cluster (label : ℤ)
  | single (idx : ℕ)
deriving DecidableEq, Repr

structure Group where
  gid : GroupId
  members : List GPhoto
  startT : Option ℚ
  endT : Option ℚ
  loc : Option (ℚ × ℚ)
deriving DecidableEq, Repr

/-- Line 782/807: `group_location = (photo.gps_lat, photo.gps_lon) if
photo.gps_lat else None` — the Python truthiness test is on the latitude
alone, and the stored pair keeps the raw optional longitude. -/
def seedLoc (p : GPhoto) : Option (ℚ × Option ℚ) :=
  if pyTruthy p.lat then some (p.lat.getD 0, p.lon) else none

/-- Lines 788-794: `location_match` is `True` unless the group has an
anchor and the item has truthy lat and lon, in which case it is
`haversine(anchor, item) < 1.0`.  (When the stored anchor longitude is
`None`, the Python call would raise a TypeError inside `radians`; that
corner is modelled by `Option.getD 0` and no theorem exercises it.) -/
def locMatch (dist : Dist) (gloc : Option (ℚ × Option ℚ)) (p : GPhoto) : Bool :=
  match gloc with
  | none => true
  | some (gla, glo) =>
      if pyTruthy p.lat && pyTruthy p.lon then
        decide (dist gla (glo.getD 0) (p.lat.getD 0) (p.lon.getD 0) < 1)
      else true

/-- Lines 786-798: admit iff elapsed hours from the group start is `≤ 2`
and the location matches; start time and anchor always come from the
group's seed (they are set to the seeding photo's values at lines
781-782 and 806-807 and never updated while the group grows). -/
def admitsB (dist : Dist) (seed p : GPhoto) : Bool :=
  decide ((p.dt.getD 0 - seed.dt.getD 0) / 3600 ≤ 2) &&
    locMatch dist (seedLoc seed) p

/-- The dated-regime scan (lines 777-811).  `seed` is the current
group's first photo, `tl` the photos admitted after it (reversed). -/
def datedGo (dist : Dist) (seed : GPhoto) (tl : List GPhoto) :
    List GPhoto → List (List GPhoto)
  | [] => [seed :: tl.reverse]
  | p :: rest =>
      if admitsB dist seed p then datedGo dist seed (p :: tl) rest
      else (seed :: tl.reverse) :: datedGo dist p [] rest

def datedGroups (dist : Dist) : List GPhoto → List (List GPhoto)
  | [] => []
  | p :: rest => datedGo dist p [] rest

/-- `_create_group` (lines 897-914): start/end are min/max over the
members' timestamps, the representative coordinate is the first member
coordinate whose lat and lon are both truthy, the identifier derives
from the seed. -/
def mkGroup (ps : List GPhoto) : Group :=
  { gid := GroupId.seeded (ps.headD default).dt (ps.headD default).id
    members := ps
    startT := (ps.filterMap fun p => p.dt).min?
    endT := (ps.filterMap fun p => p.dt).max?
    loc := ((ps.filter fun p => pyTruthy p.lat && pyTruthy p.lon).map
      fun p => (p.lat.getD 0, p.lon.getD 0)).head? }

/-- Lines 818-830: scan all groups, keeping the first strict minimum of
the distance from the orphan to each group's representative coordinate
(groups with no coordinate are skipped). -/
def bestGroup (dist : Dist) (p : GPhoto) (gs : List Group) : Option (ℕ × ℚ) :=
  gs.enum.foldl
    (fun best ig =>
      match ig.2.loc with
      | none => best
      | some gl =>
          let d := dist (p.lat.getD 0) (p.lon.getD 0) gl.1 gl.2
          match best with
          | none => some (ig.1, d)
          | some jm => if d < jm.2 then some (ig.1, d) else best)
    none

def modifyAt (l : List Group) (i : ℕ) (f : Group → Group) : List Group :=
  l.enum.map fun jg => if jg.1 = i then f jg.2 else jg.2

/-- Lines 816-834: an undated photo with truthy lat and lon is appended
to the nearest group if that nearest distance is `< 1` km. -/
def attachOrphan (dist : Dist) (gs : List Group) (p : GPhoto) : List Group :=
  if pyTruthy p.lat && pyTruthy p.lon then
    match bestGroup dist p gs with
    | none => gs
    | some id' =>
        if id'.2 < 1 then
          modifyAt gs id'.1 fun g => { g with members := g.members ++ [p] }
        else gs
  else gs

/-- Python dict preserves insertion order: first occurrences, in order. -/
def firstDedup {α : Type} [DecidableEq α] (l : List α) : List α :=
  l.foldl (fun acc t => if t ∈ acc then acc else acc ++ [t]) []

/-- Key of row `i` of the DBSCAN labelling (lines 873-878). -/
def vTagOf (labels : List ℤ) (i : ℕ) : GroupId :=
  if labels.getD i (-1) = -1 then GroupId.single i
  else GroupId.cluster (labels.getD i (-1))

/-- `_group_by_location_and_visual` (lines 840-895): only photos with a
CLIP embedding enter `valid_photos` and are clustered (DBSCAN modelled
by `labels`, one per valid photo, in order); if no photo has an
embedding the whole batch becomes the single group `group_0`. -/
def groupByLocationAndVisual (labels : List ℤ) (photos : List GPhoto) :
    List Group :=
  let valid := photos.filter fun p => p.emb.isSome
  if valid = [] then
    [{ gid := GroupId.fallback, members := photos,
       startT := none, endT := none, loc := none }]
  else
    let tagged := valid.enum.map fun ip => (vTagOf labels ip.1, ip.2)
    (firstDedup (tagged.map Prod.fst)).map fun tag =>
      { gid := tag
        members := (tagged.filter fun tp => tp.1 = tag).map Prod.snd
        startT := none, endT := none, loc := none }

/-- Python's stable `sorted(photos_with_date, key=datetime_original)`,
modelled as a stable insertion sort. -/
def insertByTime (p : GPhoto) : List GPhoto → List GPhoto
  | [] => [p]
  | q :: qs =>
      if p.dt.getD 0 ≤ q.dt.getD 0 then p :: q :: qs
      else q :: insertByTime p qs

def sortByTime (l : List GPhoto) : List GPhoto := l.foldr insertByTime []

/-- `create_groups` (lines 745-838): the undated regime runs only when
no photo has a timestamp; otherwise the dated scan runs over the sorted
dated photos and each undated photo is then offered to its nearest
group. -/
def create_groups (dist : Dist) (labels : List ℤ) (photos : List GPhoto) :
    List Group :=
  let withDate := photos.filter fun p => p.dt.isSome
  let withoutDate := photos.filter fun p => !p.dt.isSome
  if withDate = [] then groupByLocationAndVisual labels photos
  else
    withoutDate.foldl (attachOrphan dist)
      ((datedGroups dist (sortByTime withDate)).map mkGroup)

@[simp] theorem mkGroup_members (ps : List GPhoto) :
    (mkGroup ps).members = ps := rfl

/-- The claim's per-group admission condition: a group is its seed
followed by items each admitted against that seed (elapsed `≤ 2` h from
the seed's timestamp, and no coordinate comparison possible or distance
`< 1` km from the seed's anchor). -/
def GroupOk (dist : Dist) (g : List GPhoto) : Prop :=
  ∃ s t, g = s :: t ∧ ∀ p ∈ t, admitsB dist s p = true

/-- The claim's boundary condition: consecutive groups split exactly
where the next group's seed fails admission against the previous seed. -/
def BoundaryFail (dist : Dist) (g g' : List GPhoto) : Prop :=
  ∀ s t s' t', g = s :: t → g' = s' :: t' → admitsB dist s s' = false

theorem datedGo_spec (dist : Dist) (rest : List GPhoto) :
    ∀ (seed : GPhoto) (tl : List GPhoto),
      (∀ p ∈ tl, admitsB dist seed p = true) →
      (datedGo dist seed tl rest).flatten = seed :: (tl.reverse ++ rest) ∧
      (∀ g ∈ datedGo dist seed tl rest, GroupOk dist g) ∧
      List.Chain' (BoundaryFail dist) (datedGo dist seed tl rest) ∧
      ∃ t2, (datedGo dist seed tl rest).head? = some (seed :: t2) := by
  induction rest with
  | nil =>
      intro seed tl h
      refine ⟨by simp [datedGo], ?_, by simp [datedGo], ?_⟩
      · intro g hg
        simp only [datedGo, List.mem_singleton] at hg
        subst hg
        exact ⟨seed, tl.reverse, rfl, fun p hp => h p (List.mem_reverse.mp hp)⟩
      · exact ⟨tl.reverse, by simp [datedGo]⟩
  | cons p rest ih =>
      intro seed tl h
      by_cases hadm : admitsB dist seed p = true
      · have h' : ∀ q ∈ p :: tl, admitsB dist seed q = true := by
          intro q hq
          rcases List.mem_cons.mp hq with rfl | hq2
          · exact hadm
          · exact h q hq2
        rcases ih seed (p :: tl) h' with ⟨hjoin, hok, hchain, hhead⟩
        rw [datedGo, if_pos hadm]
        refine ⟨?_, hok, hchain, hhead⟩
        rw [hjoin]
        simp [List.reverse_cons, List.append_assoc]
      · rcases ih p [] (by simp) with ⟨hjoin, hok, hchain, hhead⟩
        rw [datedGo, if_neg hadm]
        have hadm' : admitsB dist seed p = false := by
          cases hb : admitsB dist seed p
          · rfl
          · exact absurd hb hadm
        refine ⟨?_, ?_, ?_, ⟨tl.reverse, rfl⟩⟩
        · rw [List.flatten_cons, hjoin]
          simp
        · intro g hg
          rcases List.mem_cons.mp hg with rfl | hg2
          · exact ⟨seed, tl.reverse, rfl,
              fun q hq => h q (List.mem_reverse.mp hq)⟩
          · exact hok g hg2
        · refine List.chain'_cons'.mpr ⟨?_, hchain⟩
          intro b hb
          rcases hhead with ⟨t2, ht2⟩
          rw [ht2] at hb
          simp only [Option.mem_some_iff] at hb
          subst hb
          intro s t s' t' he1 he2
          injection he1 with hs _
          injection he2 with hs' _
          subst hs
          subst hs'
          exact hadm'

theorem datedGroups_spec (dist : Dist) (l : List GPhoto) :
    (datedGroups dist l).flatten = l ∧
    (∀ g ∈ datedGroups dist l, GroupOk dist g) ∧
    List.Chain' (BoundaryFail dist) (datedGroups dist l) := by
  cases l with
  | nil => refine ⟨rfl, by simp [datedGroups], by simp [datedGroups]⟩
  | cons p rest =>
      rcases datedGo_spec dist rest p [] (by simp) with ⟨hj, hok, hch, _⟩
      refine ⟨?_, hok, hch⟩
      rw [show datedGroups dist (p :: rest) = datedGo dist p [] rest from rfl,
        hj]
      simp

/-- Item at time `t`, coordinates `(0, 0)`. -/
def gPhoto1 (t : ℚ) : GPhoto := ⟨0, some t, some 0, some 0, none⟩

/-- Item at time `t + 1h`, coordinates `(0, 0)`. -/
def gPhoto2 (t : ℚ) : GPhoto := ⟨1, some (t + 3600), some 0, some 0, none⟩

/-- Item at time `t + 3h`, coordinates `(0, 0)`. -/
def gPhoto3 (t : ℚ) : GPhoto := ⟨2, some (t + 10800), some 0, some 0, none⟩

theorem admits_g1_g2 (t : ℚ) (dist : Dist) :
    admitsB dist (gPhoto1 t) (gPhoto2 t) = true := by
  simp only [admitsB, seedLoc, locMatch, gPhoto1, gPhoto2, pyTruthy_some,
    Option.getD_some, Bool.and_eq_true, decide_eq_true_eq]
  norm_num

theorem admits_g1_g3 (t : ℚ) (dist : Dist) :
    ¬ admitsB dist (gPhoto1 t) (gPhoto3 t) = true := by
  simp only [admitsB, seedLoc, locMatch, gPhoto1, gPhoto3, pyTruthy_some,
    Option.getD_some, Bool.and_eq_true, decide_eq_true_eq]
  intro h
  rcases h with ⟨h1, _⟩
  have : (t + 10800 - t) / 3600 = 3 := by ring
  rw [this] at h1
  norm_num at h1

theorem create_groups_example (t : ℚ) (dist : Dist) (labels : List ℤ) :
    (create_groups dist labels [gPhoto1 t, gPhoto2 t, gPhoto3 t]).map
      Group.members = [[gPhoto1 t, gPhoto2 t], [gPhoto3 t]] := by
  have hsort : sortByTime [gPhoto1 t, gPhoto2 t, gPhoto3 t] =
      [gPhoto1 t, gPhoto2 t, gPhoto3 t] := by
    have c23 : (gPhoto2 t).dt.getD 0 ≤ (gPhoto3 t).dt.getD 0 := by
      simp only [gPhoto2, gPhoto3, Option.getD_some]
      linarith
    have c12 : (gPhoto1 t).dt.getD 0 ≤ (gPhoto2 t).dt.getD 0 := by
      simp only [gPhoto1, gPhoto2, Option.getD_some]
      linarith
    show insertByTime (gPhoto1 t)
      (insertByTime (gPhoto2 t) (insertByTime (gPhoto3 t) [])) = _
    rw [show insertByTime (gPhoto3 t) [] = [gPhoto3 t] from rfl]
    rw [insertByTime, if_pos c23, insertByTime, if_pos c12]
  have hdg : datedGroups dist [gPhoto1 t, gPhoto2 t, gPhoto3 t] =
      [[gPhoto1 t, gPhoto2 t], [gPhoto3 t]] := by
    show datedGo dist (gPhoto1 t) [] [gPhoto2 t, gPhoto3 t] = _
    rw [datedGo, if_pos (admits_g1_g2 t dist),
      datedGo, if_neg (admits_g1_g3 t dist), datedGo]
    simp
  have hfd : List.filter (fun p => p.dt.isSome)
      [gPhoto1 t, gPhoto2 t, gPhoto3 t] =
      [gPhoto1 t, gPhoto2 t, gPhoto3 t] := rfl
  have hfn : List.filter (fun p => !p.dt.isSome)
      [gPhoto1 t, gPhoto2 t, gPhoto3 t] = [] := rfl
  simp only [create_groups, hfd, hfn]
  rw [if_neg (by simp)]
  rw [hsort, hdg]
  simp [List.foldl]

/-- **C1.** Dated-regime grouping: for every batch of dated items the
produced groups are contiguous segments of the scanned list
(concatenation restores it); every group is its seed followed by items
admitted against that seed — elapsed `≤ 2` hours from the seed's
timestamp AND (no coordinate comparison possible, or haversine distance
to the seed's anchor `< 1` km) — and each new group opens exactly where
its seed fails that admission against the previous seed.  In particular
three items at `t`, `t + 1h`, `t + 3h` with identical coordinates yield
exactly two groups split at the 2-hour boundary. -/
theorem C1_dated_grouping_characterization :
    (∀ (dist : Dist) (l : List GPhoto),
      (datedGroups dist l).flatten = l ∧
      (∀ g ∈ datedGroups dist l, GroupOk dist g) ∧
      List.Chain' (BoundaryFail dist) (datedGroups dist l)) ∧
    (∀ (t : ℚ) (dist : Dist) (labels : List ℤ),
      (create_groups dist labels [gPhoto1 t, gPhoto2 t, gPhoto3 t]).map
        Group.members = [[gPhoto1 t, gPhoto2 t], [gPhoto3 t]]) :=
  ⟨datedGroups_spec, create_groups_example⟩

/-- Witness for C1: the per-group admission property applied to the
one-element batch, plus the three-item example at `t = 0` with the
trivial distance function. -/
theorem C1_dated_grouping_characterization_witness :
    [gPhoto1 0] ∈ datedGroups (fun _ _ _ _ => 0) [gPhoto1 0] ∧
    GroupOk (fun _ _ _ _ => 0) [gPhoto1 0] ∧
    (create_groups (fun _ _ _ _ => 0) []
      [gPhoto1 0, gPhoto2 0, gPhoto3 0]).map Group.members =
      [[gPhoto1 0, gPhoto2 0], [gPhoto3 0]] := by
  have hm : [gPhoto1 0] ∈ datedGroups (fun _ _ _ _ => 0) [gPhoto1 0] := by
    show [gPhoto1 0] ∈ datedGo (fun _ _ _ _ => 0) (gPhoto1 0) [] []
    simp [datedGo]
  exact ⟨hm,
    (C1_dated_grouping_characterization.1 (fun _ _ _ _ => 0) [gPhoto1 0]).2.1
      [gPhoto1 0] hm,
    C1_dated_grouping_characterization.2 0 (fun _ _ _ _ => 0) []⟩

/-- The trivial distance function, used by concrete witnesses. -/
def dist0 : Dist := fun _ _ _ _ => 0

theorem snd_mem_of_mem_enum {α : Type} {x : ℕ × α} {l : List α}
    (h : x ∈ l.enum) : x.2 ∈ l := by
  have h2 := List.mem_enum_iff_getElem?.mp h
  exact List.getElem?_mem h2

theorem mem_insertByTime (p : GPhoto) (l : List GPhoto) (q : GPhoto) :
    q ∈ insertByTime p l ↔ q = p ∨ q ∈ l := by
  induction l with
  | nil => simp [insertByTime]
  | cons x xs ih =>
      simp only [insertByTime]
      split
      · simp [List.mem_cons]
      · simp only [List.mem_cons, ih]
        tauto

theorem mem_sortByTime (l : List GPhoto) (q : GPhoto) :
    q ∈ sortByTime l ↔ q ∈ l := by
  induction l with
  | nil => simp [sortByTime]
  | cons x xs ih =>
      show q ∈ insertByTime x (sortByTime xs) ↔ _
      rw [mem_insertByTime]
      simp [List.mem_cons, ih]

theorem mem_attachOrphan (dist : Dist) (gs : List Group) (q : GPhoto)
    (g : Group) (hg : g ∈ attachOrphan dist gs q) (x : GPhoto)
    (hx : x ∈ g.members) :
    (∃ g' ∈ gs, x ∈ g'.members) ∨
      (x = q ∧ pyTruthy q.lat = true ∧ pyTruthy q.lon = true) := by
  rw [attachOrphan] at hg
  split at hg
  case isTrue htr =>
    simp only [Bool.and_eq_true] at htr
    obtain ⟨hla, hlo⟩ := htr
    split at hg
    · left
      exact ⟨g, hg, hx⟩
    · split at hg
      · rw [modifyAt] at hg
        rcases List.mem_map.mp hg with ⟨jg, hjg, hgeq⟩
        have hmem : jg.2 ∈ gs := snd_mem_of_mem_enum hjg
        rename_i best jm heq hlt
        by_cases hji : jg.1 = jm.1
        case pos =>
          rw [if_pos hji] at hgeq
          subst hgeq
          simp only [List.mem_append, List.mem_singleton] at hx
          rcases hx with hx1 | rfl
          · left
            exact ⟨jg.2, hmem, hx1⟩
          · right
            exact ⟨rfl, hla, hlo⟩
        case neg =>
          rw [if_neg hji] at hgeq
          subst hgeq
          left
          exact ⟨jg.2, hmem, hx⟩
      · left
        exact ⟨g, hg, hx⟩
  case isFalse =>
    left
    exact ⟨g, hg, hx⟩

theorem mem_foldl_attachOrphan (dist : Dist) (os : List GPhoto) :
    ∀ (gs : List Group) (g : Group),
      g ∈ os.foldl (attachOrphan dist) gs → ∀ x ∈ g.members,
      (∃ g' ∈ gs, x ∈ g'.members) ∨
        (x ∈ os ∧ pyTruthy x.lat = true) := by
  induction os with
  | nil =>
      intro gs g hg x hx
      left
      exact ⟨g, hg, hx⟩
  | cons o os ih =>
      intro gs g hg x hx
      rcases ih (attachOrphan dist gs o) g hg x hx with ⟨g', hg', hx'⟩ | ⟨ho, hl⟩
      · rcases mem_attachOrphan dist gs o g' hg' x hx' with h1 | ⟨rfl, hl, _⟩
        · left
          exact h1
        · right
          exact ⟨List.mem_cons_self _ _, hl⟩
      · right
        exact ⟨List.mem_cons_of_mem _ ho, hl⟩

/-- **C10.** A latitude of exactly `0.0` is treated as absent (the check
is Python truthiness of the value): an item at latitude 0 never provides
a group anchor when it seeds; the 1-km test is always skipped when
admitting it (admission is on time alone); and an undated item at
latitude 0 is never attached to any group in the dated regime. -/
theorem C10_zero_latitude_treated_as_absent :
    (∀ p : GPhoto, p.lat = some 0 → seedLoc p = none) ∧
    (∀ (dist : Dist) (gloc : Option (ℚ × Option ℚ)) (p : GPhoto),
      p.lat = some 0 → locMatch dist gloc p = true) ∧
    (∀ (dist : Dist) (labels : List ℤ) (photos : List GPhoto) (p : GPhoto),
      p.dt = none → p.lat = some 0 → (∃ q ∈ photos, q.dt.isSome) →
      ∀ g ∈ create_groups dist labels photos, p ∉ g.members) := by
  refine ⟨?_, ?_, ?_⟩
  · intro p h
    rw [seedLoc, h]
    simp
  · intro dist gloc p h
    cases gloc with
    | none => rfl
    | some gl => simp [locMatch, h]
  · intro dist labels photos p hdt hlat hex g hg hmem
    have hwd : photos.filter (fun q => q.dt.isSome) ≠ [] := by
      rcases hex with ⟨q, hq, hqs⟩
      intro he
      have hqf : q ∈ photos.filter (fun q => q.dt.isSome) :=
        List.mem_filter.mpr ⟨hq, hqs⟩
      rw [he] at hqf
      simp at hqf
    simp only [create_groups] at hg
    rw [if_neg hwd] at hg
    rcases mem_foldl_attachOrphan dist _ _ g hg p hmem with
      ⟨g', hg', hmem'⟩ | ⟨_, hlat'⟩
    · rcases List.mem_map.mp hg' with ⟨gl, hgl, rfl⟩
      rw [mkGroup_members] at hmem'
      have hflat := (datedGroups_spec dist
        (sortByTime (photos.filter fun q => q.dt.isSome))).1
      have hp1 : p ∈ sortByTime (photos.filter fun q => q.dt.isSome) := by
        rw [← hflat]
        exact List.mem_flatten.mpr ⟨gl, hgl, hmem'⟩
      have hp2 := (mem_sortByTime _ p).mp hp1
      have hp3 := (List.mem_filter.mp hp2).2
      rw [hdt] at hp3
      simp at hp3
    · rw [hlat] at hlat'
      simp at hlat'

/-- A dated item with no coordinates. -/
def datedQ : GPhoto := ⟨0, some 0, none, none, none⟩

/-- An undated item at latitude exactly `0.0`. -/
def orphanZ : GPhoto := ⟨1, none, some 0, some 5, none⟩

/-- Witness for C10 at concrete inputs: `orphanZ` (undated, latitude 0)
provides no seed anchor, passes every location test trivially, and ends
up attached to no group of the dated batch `[datedQ, orphanZ]`. -/
theorem C10_zero_latitude_treated_as_absent_witness :
    orphanZ.lat = some 0 ∧ seedLoc orphanZ = none ∧
    locMatch dist0 (some (3, some 4)) orphanZ = true ∧
    orphanZ.dt = none ∧ datedQ.dt.isSome ∧
    mkGroup [datedQ] ∈ create_groups dist0 [] [datedQ, orphanZ] ∧
    orphanZ ∉ (mkGroup [datedQ]).members := by
  have hex : ∃ q ∈ [datedQ, orphanZ], q.dt.isSome :=
    ⟨datedQ, by decide, by decide⟩
  have hmemG : mkGroup [datedQ] ∈ create_groups dist0 [] [datedQ, orphanZ] := by
    decide
  exact ⟨rfl, C10_zero_latitude_treated_as_absent.1 orphanZ rfl,
    C10_zero_latitude_treated_as_absent.2.1 dist0 _ orphanZ rfl, rfl,
    by decide, hmemG,
    C10_zero_latitude_treated_as_absent.2.2 dist0 [] [datedQ, orphanZ]
      orphanZ rfl rfl hex _ hmemG⟩

/-- The group identifier the scan leaves on a photo: `photo.group_id` is
written exactly for the photos placed in some group, so reading it back
is looking the photo up among the groups' members. -/
def assignedGroupId (gs : List Group) (p : GPhoto) : Option GroupId :=
  (gs.find? fun g => decide (p ∈ g.members)).map Group.gid

theorem mem_gbv_members (labels : List ℤ) (photos : List GPhoto) (g : Group)
    (hvalid : photos.filter (fun p => p.emb.isSome) ≠ [])
    (hg : g ∈ groupByLocationAndVisual labels photos)
    (x : GPhoto) (hx : x ∈ g.members) :
    x ∈ photos.filter (fun p => p.emb.isSome) := by
  simp only [groupByLocationAndVisual] at hg
  rw [if_neg hvalid] at hg
  rcases List.mem_map.mp hg with ⟨tag, _, rfl⟩
  simp only at hx
  rcases List.mem_map.mp hx with ⟨tp, htp, rfl⟩
  have h1 := (List.mem_filter.mp htp).1
  rcases List.mem_map.mp h1 with ⟨ip, hip, rfl⟩
  exact snd_mem_of_mem_enum hip

/-- **C9.** In the undated regime (no item in the batch has a
timestamp), when at least one item carries a visual embedding, only
items with embeddings are clustered: an item lacking an embedding
belongs to none of the returned groups, and its group identifier
remains unset. -/
theorem C9_undated_without_embedding_ungrouped
    (dist : Dist) (labels : List ℤ) (photos : List GPhoto) (p : GPhoto)
    (hnodt : ∀ q ∈ photos, q.dt = none)
    (hex : ∃ q ∈ photos, q.emb.isSome)
    (_hp : p ∈ photos) (hemb : p.emb = none) :
    (∀ g ∈ create_groups dist labels photos, p ∉ g.members) ∧
    assignedGroupId (create_groups dist labels photos) p = none := by
  have hwd : photos.filter (fun q => q.dt.isSome) = [] := by
    rw [List.filter_eq_nil_iff]
    intro q hq
    rw [hnodt q hq]
    simp
  have hstep : create_groups dist labels photos =
      groupByLocationAndVisual labels photos := by
    simp [create_groups, hwd]
  have hvalid : photos.filter (fun q => q.emb.isSome) ≠ [] := by
    rcases hex with ⟨q, hq, hqe⟩
    intro he
    have hqf : q ∈ photos.filter (fun q => q.emb.isSome) :=
      List.mem_filter.mpr ⟨hq, hqe⟩
    rw [he] at hqf
    simp at hqf
  have hnot : ∀ g ∈ create_groups dist labels photos, p ∉ g.members := by
    intro g hg hmem
    rw [hstep] at hg
    have h1 := mem_gbv_members labels photos g hvalid hg p hmem
    have h2 := (List.mem_filter.mp h1).2
    rw [hemb] at h2
    simp at h2
  refine ⟨hnot, ?_⟩
  rw [assignedGroupId, List.find?_eq_none.mpr, Option.map_none']
  intro g hg
  simpa using hnot g hg

/-- An undated item carrying an embedding. -/
def vPhotoEmb : GPhoto := ⟨0, none, none, none, some [1]⟩

/-- An undated item with no embedding. -/
def vPhotoNoEmb : GPhoto := ⟨1, none, none, none, none⟩

/-- The noise-singleton group DBSCAN label `-1` produces for
`vPhotoEmb`. -/
def grpSingle : Group := ⟨GroupId.single 0, [vPhotoEmb], none, none, none⟩

/-- Witness for C9: in the batch `[vPhotoEmb, vPhotoNoEmb]` with noise
labelling, the embedded item forms the only (singleton) group while the
embedding-less item is in no group and keeps no identifier. -/
theorem C9_undated_without_embedding_ungrouped_witness :
    vPhotoNoEmb.emb = none ∧
    grpSingle ∈ create_groups dist0 [-1] [vPhotoEmb, vPhotoNoEmb] ∧
    vPhotoNoEmb ∉ grpSingle.members ∧
    assignedGroupId (create_groups dist0 [-1] [vPhotoEmb, vPhotoNoEmb])
      vPhotoNoEmb = none := by
  have hthm := C9_undated_without_embedding_ungrouped dist0 [-1]
    [vPhotoEmb, vPhotoNoEmb] vPhotoNoEmb
    (by decide) ⟨vPhotoEmb, by decide, by decide⟩ (by decide) rfl
  have hG : grpSingle ∈ create_groups dist0 [-1] [vPhotoEmb, vPhotoNoEmb] := by
    decide
  exact ⟨rfl, hG, hthm.1 grpSingle hG, hthm.2⟩

/-! ## PersonClusterer: `recognize_faces_in_batch`
(agent_v2.py lines 1473-1538)

Every `(photo, face)` embedding is collected in scan order; with fewer
than 2 embeddings the result is empty; otherwise the embeddings are
sanitized, normalized and DBSCAN-clustered (modelled by the arbitrary
label list `labels`, one label per flattened face).  Noise (`-1`) is
skipped; each label's candidate cluster is the SET of photo identifiers
owning its faces, and a candidate is kept only if it spans at least two
distinct photos. -/

structure FPhoto where
  id : ℕ
  faces : List (List ℚ)
deriving DecidableEq, Repr, Inhabited

/-- The flattened `(photo_idx, face_idx)` list (lines 1481-1486). -/
def faceIndex (photos : List FPhoto) : List (ℕ × ℕ) :=
  (photos.enum.map fun ip => ip.2.faces.enum.map fun je => (ip.1, je.1)).flatten

def personClusters (photos : List FPhoto) (labels : List ℤ) :
    List (ℤ × Finset ℕ) :=
  let flat := faceIndex photos
  if flat.length < 2 then []
  else
    let lab := fun i => labels.getD i (-1)
    let pidOf := fun i => (photos.getD (flat.getD i (0, 0)).1 default).id
    let lbls := firstDedup (((List.range flat.length).map lab).filter (· ≠ -1))
    ((lbls.map fun lb =>
        (lb, (((List.range flat.length).filter fun i => lab i = lb).map
          pidOf).toFinset))).filter
      fun c => 2 ≤ c.2.card

/-- One photo with three faces (its own faces cluster together). -/
def fPhotoMulti : FPhoto := ⟨0, [[1], [1], [1]]⟩

/-- A second photo whose face is noise. -/
def fPhotoSolo : FPhoto := ⟨1, [[5]]⟩

/-- **C5.** Every returned person cluster spans at least 2 distinct
items; with fewer than 2 face embeddings in the batch the result is
empty; and a candidate whose faces all come from one photo is discarded
even when clustering gave it a valid non-noise label and it has three
faces. -/
theorem C5_person_cluster_min_two_items :
    (∀ (photos : List FPhoto) (labels : List ℤ),
      ((faceIndex photos).length < 2 → personClusters photos labels = []) ∧
      ∀ c ∈ personClusters photos labels, 2 ≤ c.2.card) ∧
    personClusters [fPhotoMulti, fPhotoSolo] [0, 0, 0, -1] = [] := by
  constructor
  · intro photos labels
    constructor
    · intro h
      simp only [personClusters]
      rw [if_pos h]
    · intro c hc
      simp only [personClusters] at hc
      split at hc
      · simp at hc
      · have h2 := (List.mem_filter.mp hc).2
        simpa using h2
  · decide

/-- Witness for C5: a three-photo batch whose faces all share label 0
produces the single cluster spanning photo ids `{0, 1, 2}`; a
single-face batch is below the 2-embedding minimum and yields nothing. -/
theorem C5_person_cluster_min_two_items_witness :
    (0, ({0, 1, 2} : Finset ℕ)) ∈
      personClusters [⟨0, [[1]]⟩, ⟨1, [[1]]⟩, ⟨2, [[1]]⟩] [0, 0, 0] ∧
    2 ≤ (({0, 1, 2} : Finset ℕ)).card ∧
    (faceIndex [fPhotoSolo]).length < 2 ∧
    personClusters [fPhotoSolo] [0] = [] := by
  have hm : (0, ({0, 1, 2} : Finset ℕ)) ∈
      personClusters [⟨0, [[1]]⟩, ⟨1, [[1]]⟩, ⟨2, [[1]]⟩] [0, 0, 0] := by
    decide
  have hlt : (faceIndex [fPhotoSolo]).length < 2 := by decide
  exact ⟨hm,
    (C5_person_cluster_min_two_items.1 _ [0, 0, 0]).2 _ hm,
    hlt,
    (C5_person_cluster_min_two_items.1 [fPhotoSolo] [0]).1 hlt⟩

/-! ## ScoreNormalizer (agent_v2.py lines 2038-2059, pass-1 lines
1899-1910)

The raw sharpness scores are rescaled with the batch's 25th/75th
percentiles (numpy linear interpolation) only when `p75 > p25`; inside
that same branch the composite quality is recomputed as
`0.5 * sharpness + 0.3 * exposure + 0.2 * (1.0 if faces else 0.5)`.
When `p75 == p25` nothing at all is written, so the pass-1 composite
(which blends in the aesthetic score) survives unchanged. -/

structure NPhoto where
  sharp : ℚ
  expo : ℚ
  faces : Option ℕ
  aesthetic : ℚ
  blur : Bool
  overall : ℚ
deriving DecidableEq, Repr

/-- `1.0 if photo.face_count and photo.face_count > 0 else 0.5`
(Python truthiness: `None` and `0` are falsy). -/
def faceTerm (fc : Option ℕ) : ℚ := if 0 < fc.getD 0 then 1 else 1 / 2

/-- Pass-1 `tech_overall_quality` (lines 1899-1910). -/
def pass1Overall (sharp expo : ℚ) (fc : Option ℕ) (aesthetic : ℚ) : ℚ :=
  (1 / 2) * ((1 / 2) * sharp + (3 / 10) * expo + (1 / 5) * faceTerm fc)
    + (1 / 2) * aesthetic

def insertQ (x : ℚ) : List ℚ → List ℚ
  | [] => [x]
  | y :: ys => if x ≤ y then x :: y :: ys else y :: insertQ x ys

def sortQ (l : List ℚ) : List ℚ := l.foldr insertQ []

/-- `np.percentile(xs, q)`: linear interpolation on sorted data at
fractional position `q/100 * (n-1)`. -/
def percentileQ (xs : List ℚ) (q : ℚ) : ℚ :=
  let s := sortQ xs
  let pos : ℚ := q / 100 * ((s.length : ℚ) - 1)
  let i : ℕ := (Rat.floor pos).toNat
  let lo := s.getD i 0
  let hi := s.getD (i + 1) lo
  lo + (pos - (i : ℚ)) * (hi - lo)

/-- Phase 2.5c (lines 2040-2057): with `p75 > p25` every photo's
sharpness is rescaled and clamped, the blur flag rewritten, and the
composite recomputed from the fixed blend; otherwise nothing changes. -/
def normalizeScores (photos : List NPhoto) : List NPhoto :=
  if photos.isEmpty then photos
  else
    let p25 := percentileQ (photos.map fun p => p.sharp) 25
    let p75 := percentileQ (photos.map fun p => p.sharp) 75
    if p25 < p75 then
      photos.map fun p =>
        let ns := max 0 (min 1 ((p.sharp - p25) / (p75 - p25)))
        { p with
          sharp := ns
          blur := decide (ns < 3 / 10)
          overall := (1 / 2) * ns + (3 / 10) * p.expo
            + (1 / 5) * faceTerm p.faces }
    else photos

theorem ratFloor_eq_intFloor (q : ℚ) : Rat.floor q = ⌊q⌋ := rfl

theorem percentileQ_singleton (x q : ℚ) : percentileQ [x] q = x := by
  simp only [percentileQ]
  rw [show sortQ [x] = [x] from rfl]
  have h0 : q / 100 * ((([x] : List ℚ).length : ℚ) - 1) = 0 := by simp
  rw [h0, ratFloor_eq_intFloor]
  norm_num

theorem percentileQ_01_25 : percentileQ [0, 1] 25 = 1 / 4 := by
  have hs : sortQ [0, 1] = [0, 1] := by simp [sortQ, insertQ]
  simp only [percentileQ, hs]
  have h0 : (25 : ℚ) / 100 * ((([0, 1] : List ℚ).length : ℚ) - 1) = 1 / 4 := by
    simp
    norm_num
  rw [h0, ratFloor_eq_intFloor]
  norm_num

theorem percentileQ_01_75 : percentileQ [0, 1] 75 = 3 / 4 := by
  have hs : sortQ [0, 1] = [0, 1] := by simp [sortQ, insertQ]
  simp only [percentileQ, hs]
  have h0 : (75 : ℚ) / 100 * ((([0, 1] : List ℚ).length : ℚ) - 1) = 3 / 4 := by
    simp
    norm_num
  rw [h0, ratFloor_eq_intFloor]
  norm_num

/-- A photo whose pass-1 composite (`27/40`) blends the aesthetic score. -/
def cPhoto : NPhoto :=
  ⟨1 / 2, 0, none, 1, false, pass1Overall (1 / 2) 0 none 1⟩

/-- **C6 counterexample.** On the single-photo batch the percentiles
coincide, ScoreNormalizer rewrites nothing, and the surviving pass-1
composite `27/40` is NOT the fixed blend (`7/20`): the claim fails for
batches with `p25 == p75`. -/
theorem C6_counterexample_untouched_composite :
    normalizeScores [cPhoto] = [cPhoto] ∧
    cPhoto.overall ≠
      (1 / 2) * cPhoto.sharp + (3 / 10) * cPhoto.expo
        + (1 / 5) * faceTerm cPhoto.faces := by
  constructor
  · have hmap : ([cPhoto].map fun p => p.sharp) = [1 / 2] := rfl
    simp only [normalizeScores, hmap, percentileQ_singleton,
      List.isEmpty_cons, Bool.false_eq_true, if_false]
    rw [if_neg (by norm_num)]
  · have h1 : cPhoto.overall = 27 / 40 := by
      show pass1Overall (1 / 2) 0 none 1 = 27 / 40
      simp [pass1Overall, faceTerm]
      norm_num
    have h2 : (1 / 2 : ℚ) * cPhoto.sharp + (3 / 10) * cPhoto.expo
        + (1 / 5) * faceTerm cPhoto.faces = 7 / 20 := by
      show (1 / 2 : ℚ) * (1 / 2) + (3 / 10) * 0 + (1 / 5) * faceTerm none = 7 / 20
      simp [faceTerm]
      norm_num
    rw [h1, h2]
    norm_num

/-- **C6 (amended).** When the batch's 25th and 75th sharpness
percentiles differ, every item's composite quality after ScoreNormalizer
equals `0.5 * sharpness + 0.3 * exposure + 0.2 * (1 if faces else 0.5)`
with the batch-normalized sharpness; when they coincide, all items pass
through completely unchanged (the pass-1 composite survives). -/
theorem C6_composite_blend (photos : List NPhoto) :
    (percentileQ (photos.map fun p => p.sharp) 25 <
        percentileQ (photos.map fun p => p.sharp) 75 →
      ∀ q ∈ normalizeScores photos,
        q.overall = (1 / 2) * q.sharp + (3 / 10) * q.expo
          + (1 / 5) * faceTerm q.faces) ∧
    (¬ percentileQ (photos.map fun p => p.sharp) 25 <
        percentileQ (photos.map fun p => p.sharp) 75 →
      normalizeScores photos = photos) := by
  constructor
  · intro h q hq
    by_cases hemp : photos.isEmpty
    · rw [List.isEmpty_iff.mp hemp] at hq
      simp [normalizeScores] at hq
    · have hemp' : photos.isEmpty = false := by
        cases hb : photos.isEmpty
        · rfl
        · exact absurd hb hemp
      simp only [normalizeScores, hemp', Bool.false_eq_true, if_false,
        h, if_true] at hq
      rcases List.mem_map.mp hq with ⟨p, _, rfl⟩
      rfl
  · intro h
    by_cases hemp : photos.isEmpty
    · rw [List.isEmpty_iff.mp hemp]
      rfl
    · have hemp' : photos.isEmpty = false := by
        cases hb : photos.isEmpty
        · rfl
        · exact absurd hb hemp
      simp only [normalizeScores, hemp', Bool.false_eq_true, if_false,
        h, if_false]

/-- Batch member with raw sharpness 0. -/
def nPhoto0 : NPhoto := ⟨0, 0, none, 0, false, 0⟩

/-- Batch member with raw sharpness 1. -/
def nPhoto1 : NPhoto := ⟨1, 0, none, 0, false, 0⟩

/-- `nPhoto0` after normalization over `[nPhoto0, nPhoto1]`: clamped
sharpness 0, blur set, recomputed composite `1/10`. -/
def nPhoto0' : NPhoto := ⟨0, 0, none, 0, true, 1 / 10⟩

/-- `nPhoto1` after normalization over `[nPhoto0, nPhoto1]`: clamped
sharpness 1, recomputed composite `3/5`. -/
def nPhoto1' : NPhoto := ⟨1, 0, none, 0, false, 3 / 5⟩

theorem normalizeScores_example :
    normalizeScores [nPhoto0, nPhoto1] = [nPhoto0', nPhoto1'] := by
  have hmap : ([nPhoto0, nPhoto1].map fun p => p.sharp) = [0, 1] := rfl
  simp only [normalizeScores, hmap, percentileQ_01_25, percentileQ_01_75,
    List.isEmpty_cons, Bool.false_eq_true, if_false]
  rw [if_pos (by norm_num)]
  simp only [List.map_cons, List.map_nil, nPhoto0, nPhoto1, nPhoto0', nPhoto1']
  norm_num [faceTerm, min_def, max_def]

/-- Witness for C6 (amended) on the batch `[nPhoto0, nPhoto1]`, whose
percentiles are `1/4 < 3/4`. -/
theorem C6_composite_blend_witness :
    percentileQ ([nPhoto0, nPhoto1].map fun p => p.sharp) 25 <
      percentileQ ([nPhoto0, nPhoto1].map fun p => p.sharp) 75 ∧
    nPhoto1' ∈ normalizeScores [nPhoto0, nPhoto1] ∧
    nPhoto1'.overall =
      (1 / 2) * nPhoto1'.sharp + (3 / 10) * nPhoto1'.expo
        + (1 / 5) * faceTerm nPhoto1'.faces := by
  have hmap : ([nPhoto0, nPhoto1].map fun p => p.sharp) = [0, 1] := rfl
  have h : percentileQ ([nPhoto0, nPhoto1].map fun p => p.sharp) 25 <
      percentileQ ([nPhoto0, nPhoto1].map fun p => p.sharp) 75 := by
    rw [hmap, percentileQ_01_25, percentileQ_01_75]
    norm_num
  have hm : nPhoto1' ∈ normalizeScores [nPhoto0, nPhoto1] := by
    rw [normalizeScores_example]
    simp
  exact ⟨h, hm, (C6_composite_blend [nPhoto0, nPhoto1]).1 h nPhoto1' hm⟩

end PhotoGuru
